import Mathlib

/-!
Shallow embedding of the simulation core of `noahs_helpers_g9`:
`src/core/engine.py` (turn orchestration: signal pass, message routing,
action resolution, free-animal migration), `src/core/cell.py`
(`Cell.get_emptiest_neighbors`) and `src/core/action.py` (the tagged
`Release | Obtain | Move` action type).

Animals are identified by naturals.  Helper positions are floats in the
source; we model them as rationals.  Python sets become `Finset ℕ`,
Python dicts become insertion-ordered association lists, and each raise
site of the engine is mapped to an explicit error constructor following
the specification's error taxonomy.
-/

namespace NoahCore

/-- Python `int()` truncation toward zero, applied to a rational position
component, as in `tuple(map(int, helper.position))` (engine.py line 97/111). -/
def truncQ (q : ℚ) : ℤ := Int.tdiv q.num (q.den : ℤ)

/-- Python list indexing: a negative index counts from the end of the list;
an index out of range is an `IndexError`.  Returns the effective
non-negative index. -/
def pyIdx (len : ℕ) (i : ℤ) : Option ℕ :=
  if 0 ≤ i then (if i < (len : ℤ) then some i.toNat else none)
  else (if -i ≤ (len : ℤ) then some (len - (-i).toNat) else none)

/-- `self.grid[hy][hx]` (engine.py lines 98/112): row lookup then column
lookup, returning the canonical `(rowIdx, colIdx)` identity of the cell
together with its current animal set. -/
def gridLookup (grid : List (List (Finset ℕ))) (hy hx : ℤ) :
    Option ((ℕ × ℕ) × Finset ℕ) :=
  (pyIdx grid.length hy).bind fun iy =>
    (grid.get? iy).bind fun row =>
      (pyIdx row.length hx).bind fun ix =>
        (row.get? ix).map fun cellSet => ((iy, ix), cellSet)

/-- Mutation of the animal set of the cell at row `iy`, column `ix`
(`cell.animals.remove(...)` aliases the grid slot in the source). -/
def gridSet (grid : List (List (Finset ℕ))) (iy ix : ℕ) (v : Finset ℕ) :
    List (List (Finset ℕ)) :=
  grid.set iy (((grid.get? iy).getD []).set ix v)

/-- Python dict assignment `m[k] = v`: overwrite in place if the key is
present, else append (dicts preserve insertion order). -/
def dictSet (m : List (ℕ × ℕ × ℕ)) (k : ℕ) (v : ℕ × ℕ) : List (ℕ × ℕ × ℕ) :=
  if m.any (fun p => p.1 == k) then
    m.map (fun p => if p.1 == k then (k, v) else p)
  else m ++ [(k, v)]

/-- Python `del m[k]` key removal (the `KeyError` case is handled at the
call site). -/
def dictDel (m : List (ℕ × ℕ × ℕ)) (k : ℕ) : List (ℕ × ℕ × ℕ) :=
  m.filter (fun p => p.1 != k)

/-- Python dict lookup `m.get(k)`. -/
def dictGet (m : List (ℕ × ℕ × ℕ)) (k : ℕ) : Option (ℕ × ℕ) :=
  (m.find? (fun p => p.1 == k)).map (fun p => p.2)

/-- The per-helper state the action pass reads and writes: continuous
position and flock (`core/player.py` is not part of the shown sources;
only the fields the engine touches are modelled). -/
structure Helper where
  pos : ℚ × ℚ
  flock : Finset ℕ
deriving DecidableEq

/-- The world state one iteration of the action pass operates on: the
grid of cell animal sets, the free-animal index `self.free_animals`
(animal ↦ canonical `(x, y)` coordinates of its cell), and the acting
helper. -/
structure ActState where
  grid : List (List (Finset ℕ))
  free : List (ℕ × ℕ × ℕ)
  helper : Helper
deriving DecidableEq

/-- The engine raises bare `Exception`s; each constructor marks one raise
site, named after the specification's error taxonomy (§7).  `indexError`
and `keyError` are the Python built-in errors reachable from
`self.grid[...]` and `del`/`set.remove`. -/
inductive RunError where
  | protocolViolation
  | illegalAction
  | structuralError
  | indexError
  | keyError
deriving DecidableEq

/-- The value returned by `helper.get_action`: one of the three frozen
dataclasses of `core/action.py`, or (`other`) any value that is none of
them — e.g. `None` — which the `match` statement of `run_turn` does not
mention. -/
inductive PyAction where
  | release (a : ℕ)
  | obtain (a : ℕ)
  | move (x y : ℚ)
  | other
deriving DecidableEq

/-- One iteration of the action pass of `Engine.run_turn`
(engine.py lines 91–136), for the helper whose `get_action` returned the
given value.  The first component is the error raised (if any); the
second is the world state at the moment control leaves the iteration —
statement order is preserved, so a raise after a mutation returns the
partially mutated state.  `canMove` abstracts `helper.can_move_to`
(delegated to the player, whose code is not among the shown sources) and
`maxFlock` abstracts `c.MAX_FLOCK_SIZE`. -/
def resolveAction (canMove : ℚ → ℚ → Bool) (maxFlock : ℕ) (s : ActState) :
    PyAction → Option RunError × ActState
  | .release a =>
    match gridLookup s.grid (truncQ s.helper.pos.2) (truncQ s.helper.pos.1) with
    | none => (some .indexError, s)
    | some ((iy, ix), _cellSet) =>
      if a ∈ s.helper.flock then
        (none, { s with helper := { s.helper with flock := s.helper.flock.erase a },
                        free := dictSet s.free a (ix, iy) })
      else (some .illegalAction, s)
  | .obtain a =>
    match gridLookup s.grid (truncQ s.helper.pos.2) (truncQ s.helper.pos.1) with
    | none => (some .indexError, s)
    | some ((iy, ix), cellSet) =>
      if maxFlock ≤ s.helper.flock.card then (some .illegalAction, s)
      else if a ∈ cellSet then
        if s.free.any (fun p => p.1 == a) then
          (none, { s with grid := gridSet s.grid iy ix (cellSet.erase a),
                          free := dictDel s.free a,
                          helper := { s.helper with flock := insert a s.helper.flock } })
        else (some .keyError, { s with grid := gridSet s.grid iy ix (cellSet.erase a) })
      else (some .illegalAction, s)
  | .move x y =>
    if canMove x y then (none, { s with helper := { s.helper with pos := (x, y) } })
    else (some .illegalAction, s)
  | .other => (none, s)

/-- The animal set of the cell at column `x`, row `y` (empty for
out-of-range coordinates, which hold no cell). -/
def cellAt (grid : List (List (Finset ℕ))) (x y : ℕ) : Finset ℕ :=
  ((((grid.get? y).getD []).get? x).getD ∅)

/-- The lock-step agreement between the free-animal index and the cells'
own animal sets (spec §3/§8): every indexed animal is in the set of its
indexed cell, and every animal in some cell's set is indexed at exactly
that cell. -/
def agrees (s : ActState) : Prop :=
  (∀ p ∈ s.free, p.1 ∈ cellAt s.grid p.2.1 p.2.2) ∧
  ∀ y < s.grid.length, ∀ x < ((s.grid.get? y).getD []).length,
    ∀ a ∈ cellAt s.grid x y, dictGet s.free a = some (x, y)

instance (s : ActState) : Decidable (agrees s) := by
  unfold agrees; infer_instance

/-- Total number of animals held in cells and flocks together (the
containers of spec §3; the index is a view, not a container). -/
def totalCount (s : ActState) : ℕ :=
  (s.grid.map (fun row => (row.map Finset.card).sum)).sum + s.helper.flock.card

/-- The rational 3.7, built with the raw constructor so that kernel
evaluation does not have to normalize a division. -/
def q37 : ℚ := ⟨37, 10, by decide, by decide⟩

/-- The rational 4.2. -/
def q42 : ℚ := ⟨21, 5, by decide, by decide⟩

/-- Sanity: the raw constructors above denote 3.7 and 4.2. -/
theorem q37_q42_eq : q37 = 37 / 10 ∧ q42 = 42 / 10 := by
  constructor
  · rw [show (37 : ℚ) / 10 = ((37 : ℤ) : ℚ) / ((10 : ℕ) : ℚ) by norm_num]
    exact (Rat.num_div_den q37).symm
  · rw [show (42 : ℚ) / 10 = ((21 : ℤ) : ℚ) / ((5 : ℕ) : ℚ) by norm_num]
    exact (Rat.num_div_den q42).symm

/-- A 5×5 grid of empty cells. -/
def exGrid : List (List (Finset ℕ)) :=
  List.replicate 5 (List.replicate 5 (∅ : Finset ℕ))

/-- Every cell of the empty 5×5 grid is empty, whatever the coordinates. -/
theorem cellAt_exGrid (x y : ℕ) : cellAt exGrid x y = ∅ := by
  unfold cellAt exGrid
  cases h : (List.replicate 5 (List.replicate 5 (∅ : Finset ℕ))).get? y with
  | none => rfl
  | some row =>
    have hr : row = List.replicate 5 (∅ : Finset ℕ) :=
      List.eq_of_mem_replicate (List.get?_mem h)
    rw [Option.getD_some, hr]
    cases h2 : (List.replicate 5 (∅ : Finset ℕ)).get? x with
    | none => rfl
    | some cell =>
      have hc : cell = (∅ : Finset ℕ) := List.eq_of_mem_replicate (List.get?_mem h2)
      rw [Option.getD_some, hc]

/-- A helper at fractional position (3.7, 4.2) holding animal 7; no free
animals anywhere, so the index/cell agreement holds. -/
def exState : ActState :=
  { grid := exGrid, free := [], helper := { pos := (q37, q42), flock := {7} } }

/-- C1.  The index/cell agreement holds before, the Release succeeds
(no error), yet afterwards the agreement is broken: `run_turn`'s Release
case writes `self.free_animals[a] = cell` without ever inserting `a`
into `cell.animals` (engine.py lines 105–106), so the free-animal index
and the cells' animal sets disagree after every successful Release. -/
theorem release_breaks_index_cell_agreement :
    agrees exState ∧
    (resolveAction (fun _ _ => true) 10 exState (.release 7)).1 = none ∧
    ¬ agrees (resolveAction (fun _ _ => true) 10 exState (.release 7)).2 := by
  decide

/-- C2.  A successful Release makes the released animal vanish from the
union of all containers: before the Release the helper's flock holds the
single animal (total count 1 over cells and flocks), after it the animal
is in no cell's set and no flock (total count 0) — it survives only in
the free-animal index, so the combined container count is not constant. -/
theorem release_drops_animal_from_all_containers :
    totalCount exState = 1 ∧
    (resolveAction (fun _ _ => true) 10 exState (.release 7)).1 = none ∧
    totalCount (resolveAction (fun _ _ => true) 10 exState (.release 7)).2 = 0 ∧
    (∀ x y, 7 ∉ cellAt (resolveAction (fun _ _ => true) 10 exState (.release 7)).2.grid x y) := by
  refine ⟨by decide, by decide, by decide, ?_⟩
  intro x y
  have hgrid : (resolveAction (fun _ _ => true) 10 exState (.release 7)).2.grid = exGrid := by
    decide
  rw [hgrid, cellAt_exGrid]
  exact Finset.not_mem_empty 7

/-- C3.  A helper at (3.7, 4.2) issuing `Release(7)` with 7 in its flock:
the action succeeds, 7 leaves the flock, and the free-animal index maps 7
to the integer-truncated cell (3, 4) — not (4, 4) — but 7 is never added
to cell (3, 4)'s own animal set, contradicting "placed in the free set of
the cell". -/
theorem release_truncates_position_but_skips_cell_set :
    (resolveAction (fun _ _ => true) 10 exState (.release 7)).1 = none ∧
    7 ∉ (resolveAction (fun _ _ => true) 10 exState (.release 7)).2.helper.flock ∧
    dictGet (resolveAction (fun _ _ => true) 10 exState (.release 7)).2.free 7 = some (3, 4) ∧
    dictGet (resolveAction (fun _ _ => true) 10 exState (.release 7)).2.free 7 ≠ some (4, 4) ∧
    7 ∉ cellAt (resolveAction (fun _ _ => true) 10 exState (.release 7)).2.grid 3 4 := by
  decide

/-- C4 counterexample.  A `get_action` return value of a shape other than
the three dataclasses (e.g. `None`) is not rejected: the `match` of
`run_turn` has no fallback case, so the iteration raises no error and
changes nothing — the value is silently treated as no action. -/
theorem unmatched_action_silently_ignored_cex :
    (resolveAction (fun _ _ => true) 10 exState PyAction.other).1 = none ∧
    (resolveAction (fun _ _ => true) 10 exState PyAction.other).2 = exState := by
  decide

/-- C4 amended.  The resolver matches exactly the three Action variants;
a returned value of any other shape is silently treated as no action:
no error is raised and the world state is left unchanged. -/
theorem unmatched_action_is_noop (canMove : ℚ → ℚ → Bool) (maxFlock : ℕ)
    (s : ActState) :
    resolveAction canMove maxFlock s PyAction.other = (none, s) := rfl

/-- C6.  With the helper standing on a valid cell, Obtain aborts with
IllegalAction exactly when the flock is at capacity or the animal is
absent from the cell's animal set; when neither holds (and the animal is
also tracked by the free-animal index, as the agreement invariant
guarantees), the animal moves from the cell set and the index into the
flock and nothing else changes. -/
theorem obtain_aborts_iff_capacity_or_absent (canMove : ℚ → ℚ → Bool) (maxFlock : ℕ)
    (s : ActState) (a : ℕ) (iy ix : ℕ) (cellSet : Finset ℕ)
    (hcell : gridLookup s.grid (truncQ s.helper.pos.2) (truncQ s.helper.pos.1) =
      some ((iy, ix), cellSet)) :
    ((resolveAction canMove maxFlock s (.obtain a)).1 = some RunError.illegalAction ↔
      (maxFlock ≤ s.helper.flock.card ∨ a ∉ cellSet)) ∧
    (¬ maxFlock ≤ s.helper.flock.card → a ∈ cellSet →
      s.free.any (fun p => p.1 == a) = true →
      resolveAction canMove maxFlock s (.obtain a) =
        (none, { grid := gridSet s.grid iy ix (cellSet.erase a),
                 free := dictDel s.free a,
                 helper := { pos := s.helper.pos, flock := insert a s.helper.flock } })) := by
  simp only [resolveAction, hcell]
  by_cases h1 : maxFlock ≤ s.helper.flock.card
  · rw [if_pos h1]
    constructor
    · simp [h1]
    · intro hc; exact absurd h1 hc
  · rw [if_neg h1]
    by_cases h2 : a ∈ cellSet
    · rw [if_pos h2]
      by_cases h3 : s.free.any (fun p => p.1 == a) = true
      · rw [if_pos h3]
        constructor
        · simp [h1, h2]
        · intro _ _ _; rfl
      · rw [if_neg h3]
        constructor
        · simp [h1, h2]
        · intro _ _ hc; exact absurd hc h3
    · rw [if_neg h2]
      constructor
      · simp [h2]
      · intro _ hc; exact absurd hc h2

/-- A helper with an empty flock standing at the origin of a one-cell
grid holding free animal 5, with the index in agreement. -/
def obState : ActState :=
  { grid := [[{5}]], free := [(5, 0, 0)], helper := { pos := (0, 0), flock := ∅ } }

/-- Witness for C6 at a concrete state: the Obtain succeeds and performs
exactly the three mutations. -/
theorem obtain_aborts_iff_capacity_or_absent_w :
    ((resolveAction (fun _ _ => true) 4 obState (.obtain 5)).1 = some RunError.illegalAction ↔
      (4 ≤ obState.helper.flock.card ∨ 5 ∉ ({5} : Finset ℕ))) ∧
    (¬ 4 ≤ obState.helper.flock.card → 5 ∈ ({5} : Finset ℕ) →
      obState.free.any (fun p => p.1 == 5) = true →
      resolveAction (fun _ _ => true) 4 obState (.obtain 5) =
        (none, { grid := gridSet obState.grid 0 0 (({5} : Finset ℕ).erase 5),
                 free := dictDel obState.free 5,
                 helper := { pos := obState.helper.pos,
                             flock := insert 5 obState.helper.flock } })) :=
  obtain_aborts_iff_capacity_or_absent (fun _ _ => true) 4 obState 5 0 0 {5} (by decide)

/-- C10.  Whenever an action's precondition check fails and the iteration
raises IllegalAction — Release of an animal not in the flock, Obtain at
capacity or of an animal absent from the cell, Move rejected by
`can_move_to` — the world state at the raise is exactly the state in
which the action started: every check precedes every mutation in
`run_turn`'s action cases. -/
theorem failed_precondition_mutates_nothing (canMove : ℚ → ℚ → Bool) (maxFlock : ℕ)
    (s : ActState) (act : PyAction)
    (h : (resolveAction canMove maxFlock s act).1 = some RunError.illegalAction) :
    (resolveAction canMove maxFlock s act).2 = s := by
  cases act with
  | release a =>
    rcases hg : gridLookup s.grid (truncQ s.helper.pos.2) (truncQ s.helper.pos.1) with
      _ | ⟨⟨iy, ix⟩, cellSet⟩
    · simp only [resolveAction, hg]
    · simp only [resolveAction, hg] at h ⊢
      by_cases hm : a ∈ s.helper.flock
      · rw [if_pos hm] at h; exact absurd h (by simp)
      · rw [if_neg hm]
  | obtain a =>
    rcases hg : gridLookup s.grid (truncQ s.helper.pos.2) (truncQ s.helper.pos.1) with
      _ | ⟨⟨iy, ix⟩, cellSet⟩
    · simp only [resolveAction, hg]
    · simp only [resolveAction, hg] at h ⊢
      by_cases h1 : maxFlock ≤ s.helper.flock.card
      · rw [if_pos h1]
      · rw [if_neg h1] at h ⊢
        by_cases h2 : a ∈ cellSet
        · rw [if_pos h2] at h
          by_cases h3 : s.free.any (fun p => p.1 == a) = true
          · rw [if_pos h3] at h; exact absurd h (by simp)
          · rw [if_neg h3] at h; exact absurd h (by simp)
        · rw [if_neg h2]
  | move x y =>
    simp only [resolveAction] at h ⊢
    by_cases hm : canMove x y = true
    · rw [if_pos hm] at h; exact absurd h (by simp)
    · rw [if_neg hm]
  | other => simp only [resolveAction] at h; exact absurd h (by simp)

/-- Witness for C10: a rejected Move at a concrete state leaves the state
untouched. -/
theorem failed_precondition_mutates_nothing_w :
    (resolveAction (fun _ _ => false) 10 exState (.move 1 1)).2 = exState :=
  failed_precondition_mutates_nothing (fun _ _ => false) 10 exState (.move 1 1) (by decide)

/-- Modelled from the spec: the constant `c.ONE_BYTE` lives in
`core/constants.py`, which is not among the shown sources; the spec fixes
the legal signal range as the integers in [0, 256). -/
def oneByte : ℕ := 256

/-- The per-helper byte check of the signal pass (engine.py lines 74–78):
`if not (0 <= one_byte_message < c.ONE_BYTE): raise`. -/
def checkSignal (m : ℤ) : Option RunError :=
  if 0 ≤ m ∧ m < (oneByte : ℤ) then none else some .protocolViolation

/-- The signal pass over the helpers' returned values in turn order; the
first out-of-range value aborts the run. -/
def signalPass (ms : List ℤ) : Option RunError := ms.findSome? checkSignal

/-- C7.  The signal pass aborts with ProtocolViolation exactly when some
helper's `check_surroundings` value lies outside [0, 256); values within
[0, 255] never trigger it, and no other error can arise from this pass. -/
theorem signal_pass_aborts_iff_byte_out_of_range (ms : List ℤ) :
    (signalPass ms = some RunError.protocolViolation ↔
      ∃ m ∈ ms, ¬ (0 ≤ m ∧ m < 256)) ∧
    ∀ e, signalPass ms = some e → e = RunError.protocolViolation := by
  induction ms with
  | nil =>
    constructor
    · simp [signalPass]
    · intro e he; simp [signalPass] at he
  | cons m ms ih =>
    rcases ih with ⟨ih1, ih2⟩
    by_cases hm : 0 ≤ m ∧ m < 256
    · have hc : checkSignal m = none := by
        simp only [checkSignal, oneByte]
        rw [if_pos (by exact_mod_cast hm)]
      have hstep : signalPass (m :: ms) = signalPass ms := by
        simp [signalPass, List.findSome?_cons, hc]
      constructor
      · rw [hstep, ih1]
        constructor
        · rintro ⟨x, hx, hxr⟩; exact ⟨x, List.mem_cons_of_mem m hx, hxr⟩
        · rintro ⟨x, hx, hxr⟩
          rcases List.mem_cons.mp hx with rfl | hx'
          · exact absurd hm hxr
          · exact ⟨x, hx', hxr⟩
      · intro e he; exact ih2 e (hstep ▸ he)
    · have hc : checkSignal m = some RunError.protocolViolation := by
        simp only [checkSignal, oneByte]
        rw [if_neg (by exact_mod_cast hm)]
      have hstep : signalPass (m :: ms) = some RunError.protocolViolation := by
        simp [signalPass, List.findSome?_cons, hc]
      constructor
      · rw [hstep]
        exact ⟨fun _ => ⟨m, List.mem_cons_self m ms, hm⟩, fun _ => rfl⟩
      · intro e he
        rw [hstep] at he
        exact (Option.some.inj he).symm

/-- The four neighbor links of a `Cell` (cell.py lines 15–18); `none` is
Python `None`. -/
structure CellLinks where
  up : Option (ℤ × ℤ)
  down : Option (ℤ × ℤ)
  left : Option (ℤ × ℤ)
  right : Option (ℤ × ℤ)

/-- `dirs = [dir for dir in [self.up, self.down, self.left, self.right]
if dir is not None]` (cell.py lines 29–33), with cells identified by their
coordinates; the static topology `t` gives each cell its links. -/
def linkedNbrs (t : ℤ × ℤ → CellLinks) (c : ℤ × ℤ) : List (ℤ × ℤ) :=
  [(t c).up, (t c).down, (t c).left, (t c).right].filterMap id

/-- `Cell.get_emptiest_neighbors` (cell.py lines 28–39): `none` models the
`ValueError` that `min([])` raises when the cell has no linked neighbor;
otherwise the linked neighbors tied for the minimum animal count, in link
order. -/
def emptiestNeighbors (t : ℤ × ℤ → CellLinks) (oc : ℤ × ℤ → Finset ℕ)
    (c : ℤ × ℤ) : Option (List (ℤ × ℤ)) :=
  match linkedNbrs t c with
  | [] => none
  | d :: ds =>
    some ((d :: ds).filter fun x =>
      (oc x).card == (ds.map fun y => (oc y).card).foldl min ((oc d).card))

/-- The state the migration phase reads and writes: each cell's animal
set, and the free-animal index (animal ↦ coordinates of its cell). -/
structure MigState where
  occ : ℤ × ℤ → Finset ℕ
  free : ℕ → Option (ℤ × ℤ)

/-- One item of the migration phase with its randomness fixed: the animal,
the cell the index pairs it with when the phase starts, the
migrate-or-not draw (`random() < ANIMAL_MOVE_PROBABILITY`), and the
tie-break draw (`choice` picks index `tie % len` of the tied list). -/
structure Draw where
  animal : ℕ
  src : ℤ × ℤ
  mig : Bool
  tie : ℕ
deriving DecidableEq

/-- The mutations of one successful migration (engine.py lines 145–148):
remove the animal from the source cell's set, add it to the destination
cell's set, repoint the index. -/
def applyMig (s : MigState) (a : ℕ) (src dest : ℤ × ℤ) : MigState :=
  let occ1 := Function.update s.occ src ((s.occ src).erase a)
  { occ := Function.update occ1 dest (insert a (occ1 dest)),
    free := Function.update s.free a (some dest) }

/-- One iteration of the migration loop (engine.py lines 139–148) for one
animal: skip unless the migrate draw fired; `get_emptiest_neighbors` may
fail structurally; `cell.animals.remove(animal)` raises `KeyError` if the
animal is not in its indexed cell's set. -/
def migStep (t : ℤ × ℤ → CellLinks) (s : MigState) (d : Draw) :
    Except RunError MigState :=
  if d.mig then
    match emptiestNeighbors t s.occ d.src with
    | none => .error .structuralError
    | some nbrs =>
      if d.animal ∈ s.occ d.src then
        .ok (applyMig s d.animal d.src (nbrs.getD (d.tie % nbrs.length) d.src))
      else .error .keyError
  else .ok s

/-- The whole migration phase: the loop over `self.free_animals.items()`
in the given order, aborting at the first raise. -/
def migPhase (t : ℤ × ℤ → CellLinks) (s : MigState) (ds : List Draw) :
    Except RunError MigState :=
  ds.foldl (fun acc d => acc.bind fun st => migStep t st d) (Except.ok s)

/-- Folding `min` never goes above the seed. -/
theorem foldl_min_le_init (l : List ℕ) (a : ℕ) : l.foldl min a ≤ a := by
  induction l generalizing a with
  | nil => exact le_refl a
  | cons x xs ih => exact le_trans (ih (min a x)) (min_le_left a x)

/-- Folding `min` never goes above any list member. -/
theorem foldl_min_le_mem (l : List ℕ) (a : ℕ) (x : ℕ) (hx : x ∈ l) :
    l.foldl min a ≤ x := by
  induction l generalizing a with
  | nil => cases hx
  | cons y ys ih =>
    rcases List.mem_cons.mp hx with rfl | h
    · exact le_trans (foldl_min_le_init ys (min a x)) (min_le_right a x)
    · exact ih (min a y) h

/-- The `min` fold attains its value at the seed or at a member. -/
theorem foldl_min_attained (l : List ℕ) (a : ℕ) :
    l.foldl min a = a ∨ ∃ x ∈ l, l.foldl min a = x := by
  induction l generalizing a with
  | nil => exact Or.inl rfl
  | cons y ys ih =>
    rw [List.foldl_cons]
    rcases ih (min a y) with h | ⟨x, hx, hfx⟩
    · rcases le_total a y with hay | hya
      · rw [h, min_eq_left hay]; exact Or.inl rfl
      · rw [h, min_eq_right hya]
        exact Or.inr ⟨y, List.mem_cons_self y ys, rfl⟩
    · exact Or.inr ⟨x, List.mem_cons_of_mem y hx, hfx⟩

/-- Characterization of `emptiestNeighbors` on a cell with at least one
linked neighbor: it returns a nonempty list holding exactly the linked
neighbors of minimum animal count. -/
theorem emptiest_spec (t : ℤ × ℤ → CellLinks) (oc : ℤ × ℤ → Finset ℕ)
    (c : ℤ × ℤ) (h : linkedNbrs t c ≠ []) :
    ∃ nbrs, emptiestNeighbors t oc c = some nbrs ∧ nbrs ≠ [] ∧
      ∀ x, (x ∈ nbrs ↔ x ∈ linkedNbrs t c ∧
        ∀ y ∈ linkedNbrs t c, (oc x).card ≤ (oc y).card) := by
  rcases hl : linkedNbrs t c with _ | ⟨d, ds⟩
  · exact absurd hl h
  have hemp : emptiestNeighbors t oc c =
      some ((d :: ds).filter fun x =>
        (oc x).card == (ds.map fun y => (oc y).card).foldl min ((oc d).card)) := by
    unfold emptiestNeighbors
    rw [hl]
  set m := (ds.map fun y => (oc y).card).foldl min ((oc d).card) with hm
  have hub : ∀ y ∈ d :: ds, m ≤ (oc y).card := by
    intro y hy
    rcases List.mem_cons.mp hy with rfl | hy'
    · exact foldl_min_le_init _ _
    · exact foldl_min_le_mem _ _ _ (List.mem_map_of_mem (fun y => (oc y).card) hy')
  have hat : ∃ y ∈ d :: ds, (oc y).card = m := by
    rcases foldl_min_attained (ds.map fun y => (oc y).card) ((oc d).card) with h0 | ⟨x, hx, hfx⟩
    · exact ⟨d, List.mem_cons_self d ds, h0.symm⟩
    · obtain ⟨y, hy, hyx⟩ := List.mem_map.mp hx
      exact ⟨y, List.mem_cons_of_mem d hy, by rw [hyx, hm]; exact hfx.symm⟩
  refine ⟨_, hemp, ?_, ?_⟩
  · obtain ⟨y, hy, hyc⟩ := hat
    exact List.ne_nil_of_mem (List.mem_filter.mpr ⟨hy, by simp [hyc]⟩)
  · intro x
    constructor
    · intro hx
      obtain ⟨hmem, hpred⟩ := List.mem_filter.mp hx
      have hcard : (oc x).card = m := by simpa using hpred
      refine ⟨hl ▸ hmem, ?_⟩
      intro y hy
      rw [hcard]
      exact hub y (hl ▸ hy)
    · rintro ⟨hmem, hlb⟩
      have hmem' : x ∈ d :: ds := hl ▸ hmem
      have h1 : m ≤ (oc x).card := hub x hmem'
      have h2 : (oc x).card ≤ m := by
        obtain ⟨y, hy, hyc⟩ := hat
        calc (oc x).card ≤ (oc y).card := hlb y (hl ▸ hy)
          _ = m := hyc
      exact List.mem_filter.mpr ⟨hmem', by simp [le_antisymm h2 h1]⟩

/-- C9.  For a cell with at least one linked neighbor,
`get_emptiest_neighbors` returns exactly the linked neighbors tied for the
minimum animal count; for a cell with zero linked neighbors it fails, and
a migration attempted from such a cell aborts the run with the structural
error. -/
theorem emptiest_neighbors_min_tied_or_structural_error
    (t : ℤ × ℤ → CellLinks) (oc : ℤ × ℤ → Finset ℕ) (c : ℤ × ℤ) :
    (linkedNbrs t c ≠ [] → ∃ nbrs, emptiestNeighbors t oc c = some nbrs ∧
      ∀ x, (x ∈ nbrs ↔ x ∈ linkedNbrs t c ∧
        ∀ y ∈ linkedNbrs t c, (oc x).card ≤ (oc y).card)) ∧
    (linkedNbrs t c = [] → emptiestNeighbors t oc c = none ∧
      ∀ (s : MigState) (a tie : ℕ), migStep t s ⟨a, c, true, tie⟩ =
        Except.error RunError.structuralError) := by
  constructor
  · intro h
    obtain ⟨nbrs, he, _, hspec⟩ := emptiest_spec t oc c h
    exact ⟨nbrs, he, hspec⟩
  · intro h
    have hnone : ∀ oc' : ℤ × ℤ → Finset ℕ, emptiestNeighbors t oc' c = none := by
      intro oc'
      unfold emptiestNeighbors
      rw [h]
    refine ⟨hnone oc, ?_⟩
    intro s a tie
    simp [migStep, hnone s.occ]

/-- A west-east chain of eight cells (0,0) … (7,0), linked left/right. -/
def chainTopo : ℤ × ℤ → CellLinks := fun c =>
  { up := none, down := none,
    left := if c.2 = 0 ∧ 1 ≤ c.1 ∧ c.1 ≤ 7 then some (c.1 - 1, 0) else none,
    right := if c.2 = 0 ∧ 0 ≤ c.1 ∧ c.1 ≤ 6 then some (c.1 + 1, 0) else none }

/-- A topology with no links at all. -/
def isolatedTopo : ℤ × ℤ → CellLinks :=
  fun _ => { up := none, down := none, left := none, right := none }

/-- Occupancy: animal 1 sits in cell (1,0), animal 2 in cell (2,0). -/
def occ0 : ℤ × ℤ → Finset ℕ :=
  fun c => if c = (1, 0) then {1} else if c = (2, 0) then {2} else ∅

/-- The matching migration-phase state for `occ0`. -/
def st0 : MigState :=
  { occ := occ0,
    free := fun a => if a = 1 then some (1, 0) else if a = 2 then some (2, 0) else none }

/-- Witness for C9: on the chain, cell (1,0) has tied data to return, and
on the linkless topology any attempted migration is a structural error. -/
theorem emptiest_neighbors_min_tied_or_structural_error_w :
    (∃ nbrs, emptiestNeighbors chainTopo occ0 (1, 0) = some nbrs ∧
      ∀ x, (x ∈ nbrs ↔ x ∈ linkedNbrs chainTopo (1, 0) ∧
        ∀ y ∈ linkedNbrs chainTopo (1, 0), (occ0 x).card ≤ (occ0 y).card)) ∧
    (emptiestNeighbors isolatedTopo occ0 (0, 0) = none ∧
      ∀ (s : MigState) (a tie : ℕ), migStep isolatedTopo s ⟨a, (0, 0), true, tie⟩ =
        Except.error RunError.structuralError) :=
  ⟨(emptiest_neighbors_min_tied_or_structural_error chainTopo occ0 (1, 0)).1 (by decide),
   (emptiest_neighbors_min_tied_or_structural_error isolatedTopo occ0 (0, 0)).2 (by decide)⟩

/-- Animal 1 migrates from (1,0) with tie-break draw 0. -/
def drawA : Draw := ⟨1, (1, 0), true, 0⟩

/-- Animal 2 migrates from (2,0) with tie-break draw 0. -/
def drawB : Draw := ⟨2, (2, 0), true, 0⟩

/-- C5 counterexample.  With all per-animal draws fixed (both animals
migrate, both tie-break draws 0), processing animal 1 before animal 2
strands animal 2 in cell (1,0), while the opposite order sends it to
(3,0): animal 1's move changes the occupancy its neighbor cells show to
animal 2's emptiest-neighbor computation, so the phase is not
order-insensitive. -/
theorem migration_order_dependent_cex :
    migPhase chainTopo st0 [drawA, drawB] ≠ migPhase chainTopo st0 [drawB, drawA] := by
  intro h
  have h2 := congrArg (fun r => match r with
    | Except.ok st => st.free 2
    | Except.error _ => none) h
  exact absurd h2 (by decide)

/-- The cells one migration item may read or write: its source cell and
that cell's linked neighbors. -/
def region (t : ℤ × ℤ → CellLinks) (d : Draw) : List (ℤ × ℤ) :=
  d.src :: linkedNbrs t d.src

/-- The conditions under which one migration item cannot raise: if it
migrates, its source cell has a linked neighbor and the animal really is
in the source cell's set. -/
def Pre (t : ℤ × ℤ → CellLinks) (s : MigState) (d : Draw) : Prop :=
  d.mig = true → (linkedNbrs t d.src ≠ [] ∧ d.animal ∈ s.occ d.src)

/-- Two migration items that touch disjoint parts of the world: distinct
animals and disjoint regions (when both actually migrate). -/
def NonInterfering (t : ℤ × ℤ → CellLinks) (d₁ d₂ : Draw) : Prop :=
  d₁.mig = true → d₂.mig = true →
    (d₁.animal ≠ d₂.animal ∧ ∀ c ∈ region t d₁, c ∉ region t d₂)

instance (t : ℤ × ℤ → CellLinks) (s : MigState) (d : Draw) :
    Decidable (Pre t s d) := by
  unfold Pre; infer_instance

instance (t : ℤ × ℤ → CellLinks) (d₁ d₂ : Draw) :
    Decidable (NonInterfering t d₁ d₂) := by
  unfold NonInterfering; infer_instance

/-- Non-interference is symmetric. -/
theorem nonInterfering_symm (t : ℤ × ℤ → CellLinks) {d₁ d₂ : Draw}
    (h : NonInterfering t d₁ d₂) : NonInterfering t d₂ d₁ := by
  intro h2 h1
  obtain ⟨ha, hr⟩ := h h1 h2
  exact ⟨ha.symm, fun c hc hc1 => hr c hc1 hc⟩

/-- The destination `choice(cell.get_emptiest_neighbors())` picks, as a
function of the fixed tie-break draw. -/
def chosenDest (t : ℤ × ℤ → CellLinks) (oc : ℤ × ℤ → Finset ℕ) (d : Draw) :
    ℤ × ℤ :=
  match emptiestNeighbors t oc d.src with
  | none => d.src
  | some nbrs => nbrs.getD (d.tie % nbrs.length) d.src

/-- `emptiestNeighbors` of a cell with no linked neighbors, any occupancy. -/
theorem emptiest_nil (t : ℤ × ℤ → CellLinks) (oc : ℤ × ℤ → Finset ℕ)
    (c : ℤ × ℤ) (hl : linkedNbrs t c = []) : emptiestNeighbors t oc c = none := by
  unfold emptiestNeighbors
  rw [hl]

/-- Unfolding `emptiestNeighbors` on a cell with linked neighbors. -/
theorem emptiest_cons (t : ℤ × ℤ → CellLinks) (oc : ℤ × ℤ → Finset ℕ)
    (c : ℤ × ℤ) (d : ℤ × ℤ) (ds : List (ℤ × ℤ)) (hl : linkedNbrs t c = d :: ds) :
    emptiestNeighbors t oc c =
      some ((d :: ds).filter fun x =>
        (oc x).card == (ds.map fun y => (oc y).card).foldl min ((oc d).card)) := by
  unfold emptiestNeighbors
  rw [hl]

/-- `emptiestNeighbors` only reads the occupancy of the linked neighbors. -/
theorem emptiest_congr (t : ℤ × ℤ → CellLinks) (oc oc' : ℤ × ℤ → Finset ℕ)
    (c : ℤ × ℤ) (h : ∀ x ∈ linkedNbrs t c, oc' x = oc x) :
    emptiestNeighbors t oc' c = emptiestNeighbors t oc c := by
  rcases hl : linkedNbrs t c with _ | ⟨d, ds⟩
  · rw [emptiest_nil t oc' c hl, emptiest_nil t oc c hl]
  · have hd : oc' d = oc d := h d (by rw [hl]; exact List.mem_cons_self d ds)
    have hmap : (ds.map fun y => (oc' y).card) = ds.map fun y => (oc y).card :=
      List.map_congr_left fun y hy => by
        rw [h y (by rw [hl]; exact List.mem_cons_of_mem d hy)]
    rw [emptiest_cons t oc' c d ds hl, emptiest_cons t oc c d ds hl, hmap, hd]
    have hfil : ∀ x ∈ d :: ds,
        ((oc' x).card == (ds.map fun y => (oc y).card).foldl min ((oc d).card)) =
        ((oc x).card == (ds.map fun y => (oc y).card).foldl min ((oc d).card)) := by
      intro x hx
      rw [h x (by rw [hl]; exact hx)]
    rw [List.filter_congr hfil]

/-- The chosen destination only depends on the occupancy of the linked
neighbors. -/
theorem chosenDest_congr (t : ℤ × ℤ → CellLinks) (oc oc' : ℤ × ℤ → Finset ℕ)
    (d : Draw) (h : ∀ x ∈ linkedNbrs t d.src, oc' x = oc x) :
    chosenDest t oc' d = chosenDest t oc d := by
  unfold chosenDest
  rw [emptiest_congr t oc oc' d.src h]

/-- The chosen destination is a linked neighbor of the source cell. -/
theorem chosenDest_mem (t : ℤ × ℤ → CellLinks) (oc : ℤ × ℤ → Finset ℕ)
    (d : Draw) (hne : linkedNbrs t d.src ≠ []) :
    chosenDest t oc d ∈ linkedNbrs t d.src := by
  obtain ⟨nbrs, he, hn, hspec⟩ := emptiest_spec t oc d.src hne
  unfold chosenDest
  rw [he]
  have hlen : d.tie % nbrs.length < nbrs.length :=
    Nat.mod_lt _ (List.length_pos.mpr hn)
  have hmem : nbrs.getD (d.tie % nbrs.length) d.src ∈ nbrs := by
    rw [List.getD_eq_getElem?_getD, List.getElem?_eq_getElem hlen]
    exact List.getElem_mem hlen
  exact ((hspec _).mp hmem).1

/-- A successful migration step in closed form. -/
theorem migStep_ok_of (t : ℤ × ℤ → CellLinks) (s : MigState) (d : Draw)
    (hm : d.mig = true) (hne : linkedNbrs t d.src ≠ [])
    (hmem : d.animal ∈ s.occ d.src) :
    migStep t s d = .ok (applyMig s d.animal d.src (chosenDest t s.occ d)) := by
  obtain ⟨nbrs, he, hn, _⟩ := emptiest_spec t s.occ d.src hne
  unfold migStep chosenDest
  rw [if_pos hm, he]
  simp only [if_pos hmem]

/-- A skipped migration step. -/
theorem migStep_skip (t : ℤ × ℤ → CellLinks) (s : MigState) (d : Draw)
    (hm : d.mig = false) : migStep t s d = .ok s := by
  unfold migStep
  rw [hm]
  rfl

/-- A migration step does not change the occupancy of cells other than
the source and destination. -/
theorem applyMig_occ_of_ne (s : MigState) (a : ℕ) (src dest c : ℤ × ℤ)
    (h1 : c ≠ src) (h2 : c ≠ dest) :
    (applyMig s a src dest).occ c = s.occ c := by
  unfold applyMig
  simp only []
  rw [Function.update_noteq h2, Function.update_noteq h1]

/-- A migration step does not repoint other animals in the index. -/
theorem applyMig_free_of_ne (s : MigState) (a b : ℕ) (src dest : ℤ × ℤ)
    (h : b ≠ a) : (applyMig s a src dest).free b = s.free b := by
  unfold applyMig
  simp only []
  rw [Function.update_noteq h]

/-- Two migrations of distinct animals over four pairwise-separated cells
commute. -/
theorem applyMig_comm (s : MigState) (a₁ a₂ : ℕ) (src₁ dest₁ src₂ dest₂ : ℤ × ℤ)
    (ha : a₁ ≠ a₂) (h11 : src₁ ≠ src₂) (h12 : src₁ ≠ dest₂)
    (h21 : dest₁ ≠ src₂) (h22 : dest₁ ≠ dest₂) :
    applyMig (applyMig s a₁ src₁ dest₁) a₂ src₂ dest₂ =
    applyMig (applyMig s a₂ src₂ dest₂) a₁ src₁ dest₁ := by
  unfold applyMig
  simp only []
  have hfree : Function.update (Function.update s.free a₁ (some dest₁)) a₂ (some dest₂) =
      Function.update (Function.update s.free a₂ (some dest₂)) a₁ (some dest₁) :=
    Function.update_comm ha (some dest₁) (some dest₂) s.free
  refine congrArg₂ MigState.mk ?_ hfree
  funext c
  simp only [Function.update_apply]
  split_ifs <;> simp_all

/-- `Except.bind` is associative. -/
theorem except_bind_assoc {ε α β γ : Type} (e : Except ε α) (f : α → Except ε β)
    (g : β → Except ε γ) : (e.bind f).bind g = e.bind fun x => (f x).bind g := by
  cases e <;> rfl

/-- Two non-interfering migration steps commute, in either error or
success. -/
theorem migStep_comm (t : ℤ × ℤ → CellLinks) (s : MigState) (d₁ d₂ : Draw)
    (hR : NonInterfering t d₁ d₂) (h₁ : Pre t s d₁) (h₂ : Pre t s d₂) :
    (migStep t s d₁).bind (fun st => migStep t st d₂) =
    (migStep t s d₂).bind (fun st => migStep t st d₁) := by
  cases hm1 : d₁.mig with
  | false =>
    rw [migStep_skip t s d₁ hm1]
    show migStep t s d₂ = (migStep t s d₂).bind fun st => migStep t st d₁
    cases h2 : migStep t s d₂ with
    | error e => rfl
    | ok st => exact (migStep_skip t st d₁ hm1).symm
  | true =>
    cases hm2 : d₂.mig with
    | false =>
      rw [migStep_skip t s d₂ hm2]
      show (migStep t s d₁).bind (fun st => migStep t st d₂) = migStep t s d₁
      cases h1 : migStep t s d₁ with
      | error e => rfl
      | ok st => exact migStep_skip t st d₂ hm2
    | true =>
      obtain ⟨hne₁, hmem₁⟩ := h₁ hm1
      obtain ⟨hne₂, hmem₂⟩ := h₂ hm2
      obtain ⟨hanim, hdisj⟩ := hR hm1 hm2
      have hsrc₁ : d₁.src ∈ region t d₁ := List.mem_cons_self _ _
      have hsrc₂ : d₂.src ∈ region t d₂ := List.mem_cons_self _ _
      have hdest₁ : chosenDest t s.occ d₁ ∈ region t d₁ :=
        List.mem_cons_of_mem _ (chosenDest_mem t s.occ d₁ hne₁)
      have hdest₂ : chosenDest t s.occ d₂ ∈ region t d₂ :=
        List.mem_cons_of_mem _ (chosenDest_mem t s.occ d₂ hne₂)
      set e₁ := chosenDest t s.occ d₁ with he₁
      set e₂ := chosenDest t s.occ d₂ with he₂
      have h11 : d₁.src ≠ d₂.src := fun hq =>
        hdisj d₁.src hsrc₁ (by rw [hq]; exact hsrc₂)
      have h12 : d₁.src ≠ e₂ := fun hq =>
        hdisj d₁.src hsrc₁ (by rw [hq]; exact hdest₂)
      have h21 : e₁ ≠ d₂.src := fun hq =>
        hdisj e₁ hdest₁ (by rw [hq]; exact hsrc₂)
      have h22 : e₁ ≠ e₂ := fun hq =>
        hdisj e₁ hdest₁ (by rw [hq]; exact hdest₂)
      have E1 : migStep t s d₁ = .ok (applyMig s d₁.animal d₁.src e₁) :=
        migStep_ok_of t s d₁ hm1 hne₁ hmem₁
      set s₁ := applyMig s d₁.animal d₁.src e₁ with hs₁
      have hagree₂ : ∀ x ∈ linkedNbrs t d₂.src, s₁.occ x = s.occ x := by
        intro x hx
        have hxr : x ∈ region t d₂ := List.mem_cons_of_mem _ hx
        have hx1 : x ≠ d₁.src := fun hq => hdisj d₁.src hsrc₁ (by rw [← hq]; exact hxr)
        have hx2 : x ≠ e₁ := fun hq => hdisj e₁ hdest₁ (by rw [← hq]; exact hxr)
        exact applyMig_occ_of_ne s d₁.animal d₁.src e₁ x hx1 hx2
      have hchosen : chosenDest t s₁.occ d₂ = e₂ :=
        (chosenDest_congr t s.occ s₁.occ d₂ hagree₂).trans he₂.symm
      have hmem₂' : d₂.animal ∈ s₁.occ d₂.src := by
        rw [hs₁, applyMig_occ_of_ne s d₁.animal d₁.src e₁ d₂.src h11.symm h21.symm]
        exact hmem₂
      have E2 : migStep t s₁ d₂ = .ok (applyMig s₁ d₂.animal d₂.src e₂) := by
        have h0 := migStep_ok_of t s₁ d₂ hm2 hne₂ hmem₂'
        rwa [hchosen] at h0
      have E1' : migStep t s d₂ = .ok (applyMig s d₂.animal d₂.src e₂) :=
        migStep_ok_of t s d₂ hm2 hne₂ hmem₂
      set s₂ := applyMig s d₂.animal d₂.src e₂ with hs₂
      have hagree₁ : ∀ x ∈ linkedNbrs t d₁.src, s₂.occ x = s.occ x := by
        intro x hx
        have hxr : x ∈ region t d₁ := List.mem_cons_of_mem _ hx
        have hx1 : x ≠ d₂.src := fun hq => hdisj x hxr (by rw [hq]; exact hsrc₂)
        have hx2 : x ≠ e₂ := fun hq => hdisj x hxr (by rw [hq]; exact hdest₂)
        exact applyMig_occ_of_ne s d₂.animal d₂.src e₂ x hx1 hx2
      have hchosen' : chosenDest t s₂.occ d₁ = e₁ :=
        (chosenDest_congr t s.occ s₂.occ d₁ hagree₁).trans he₁.symm
      have hmem₁' : d₁.animal ∈ s₂.occ d₁.src := by
        rw [hs₂, applyMig_occ_of_ne s d₂.animal d₂.src e₂ d₁.src h11 h12]
        exact hmem₁
      have E2' : migStep t s₂ d₁ = .ok (applyMig s₂ d₁.animal d₁.src e₁) := by
        have h0 := migStep_ok_of t s₂ d₁ hm1 hne₁ hmem₁'
        rwa [hchosen'] at h0
      rw [E1, E1']
      show migStep t s₁ d₂ = migStep t s₂ d₁
      rw [E2, E2']
      exact congrArg Except.ok
        (applyMig_comm s d₁.animal d₂.animal d₁.src e₁ d₂.src e₂ hanim h11 h12 h21 h22)

/-- A migration phase started in an already-raised state stays raised. -/
theorem migPhase_err (t : ℤ × ℤ → CellLinks) (e : RunError) (ds : List Draw) :
    ds.foldl (fun (acc : Except RunError MigState) d => acc.bind fun st => migStep t st d)
      (Except.error e) = Except.error e := by
  induction ds with
  | nil => rfl
  | cons d ds ih =>
    rw [List.foldl_cons]
    exact ih

/-- Unrolling one iteration of the migration phase. -/
theorem migPhase_cons (t : ℤ × ℤ → CellLinks) (s : MigState) (d : Draw)
    (ds : List Draw) :
    migPhase t s (d :: ds) = (migStep t s d).bind fun st => migPhase t st ds := by
  unfold migPhase
  rw [List.foldl_cons]
  cases hst : migStep t s d with
  | error e =>
    rw [show (Except.ok s).bind (fun st => migStep t st d) = migStep t s d from rfl, hst]
    exact migPhase_err t e ds
  | ok st =>
    rw [show (Except.ok s).bind (fun st => migStep t st d) = migStep t s d from rfl, hst]
    rfl

/-- A non-interfering step cannot invalidate another item's success
conditions. -/
theorem pre_preserved (t : ℤ × ℤ → CellLinks) (s s' : MigState) (d e : Draw)
    (hd : Pre t s d) (hstep : migStep t s d = .ok s')
    (hR : NonInterfering t d e) (he : Pre t s e) : Pre t s' e := by
  intro hme
  obtain ⟨hne_e, hmem_e⟩ := he hme
  refine ⟨hne_e, ?_⟩
  cases hmd : d.mig with
  | false =>
    have h0 := migStep_skip t s d hmd
    rw [h0] at hstep
    rw [← Except.ok.inj hstep]
    exact hmem_e
  | true =>
    obtain ⟨hne_d, hmem_d⟩ := hd hmd
    have E := migStep_ok_of t s d hmd hne_d hmem_d
    rw [E] at hstep
    have hs' := Except.ok.inj hstep
    have hsrc_d : d.src ∈ region t d := List.mem_cons_self _ _
    have hdest_d : chosenDest t s.occ d ∈ region t d :=
      List.mem_cons_of_mem _ (chosenDest_mem t s.occ d hne_d)
    obtain ⟨_, hdisj⟩ := hR hmd hme
    have hes : e.src ∈ region t e := List.mem_cons_self _ _
    have h1 : e.src ≠ d.src := fun hq => hdisj d.src hsrc_d (by rw [← hq]; exact hes)
    have h2 : e.src ≠ chosenDest t s.occ d := fun hq =>
      hdisj _ hdest_d (by rw [← hq]; exact hes)
    rw [← hs', applyMig_occ_of_ne s d.animal d.src (chosenDest t s.occ d) e.src h1 h2]
    exact hmem_e

/-- C5 amended.  Order-insensitivity holds only for non-interfering
migrations: if the per-animal draws are fixed, every item can complete
(its source has a linked neighbor and holds its animal), and the items
are pairwise non-interfering — distinct animals whose source cells plus
linked neighborhoods are disjoint — then any permutation of the
processing order yields the same final state.  Without the disjointness
the phase is order-sensitive, because an earlier migration changes the
occupancy a later animal's emptiest-neighbor computation reads
(see the counterexample). -/
theorem migration_perm_invariant_of_disjoint (t : ℤ × ℤ → CellLinks)
    {l₁ l₂ : List Draw} (hperm : l₁.Perm l₂) (s : MigState)
    (hpw : l₁.Pairwise (NonInterfering t)) (hpre : ∀ d ∈ l₁, Pre t s d) :
    migPhase t s l₁ = migPhase t s l₂ := by
  revert hpw hpre
  induction hperm generalizing s with
  | nil => intro _ _; rfl
  | cons x p ih =>
    intro hpw hpre
    obtain ⟨hx, hpw'⟩ := List.pairwise_cons.mp hpw
    have hprex : Pre t s x := hpre x (List.mem_cons_self x _)
    have hstep : ∃ s', migStep t s x = .ok s' := by
      cases hmx : x.mig with
      | false => exact ⟨s, migStep_skip t s x hmx⟩
      | true =>
        obtain ⟨hne, hmem⟩ := hprex hmx
        exact ⟨_, migStep_ok_of t s x hmx hne hmem⟩
    obtain ⟨s', hs'⟩ := hstep
    rw [migPhase_cons, migPhase_cons, hs']
    exact ih s' hpw' fun d hd =>
      pre_preserved t s s' x d hprex hs' (hx d hd) (hpre d (List.mem_cons_of_mem x hd))
  | swap x y l =>
    intro hpw hpre
    obtain ⟨hy, hpw'⟩ := List.pairwise_cons.mp hpw
    have hRyx : NonInterfering t y x := hy x (List.mem_cons_self x l)
    have hPy : Pre t s y := hpre y (List.mem_cons_self y _)
    have hPx : Pre t s x := hpre x (List.mem_cons_of_mem y (List.mem_cons_self x l))
    simp only [migPhase_cons]
    rw [← except_bind_assoc, ← except_bind_assoc, migStep_comm t s y x hRyx hPy hPx]
  | trans p₁ p₂ ih₁ ih₂ =>
    intro hpw hpre
    have hpw₂ := (p₁.pairwise_iff fun h => nonInterfering_symm t h).mp hpw
    have hpre₂ : ∀ d ∈ _, Pre t s d := fun d hd => hpre d (p₁.mem_iff.mpr hd)
    rw [ih₁ s hpw hpre, ih₂ s hpw₂ hpre₂]

/-- Animal 1 in cell (1,0) and animal 2 in cell (5,0): far enough apart
on the chain that their migration regions are disjoint. -/
def st1 : MigState :=
  { occ := fun c => if c = (1, 0) then {1} else if c = (5, 0) then {2} else ∅,
    free := fun a => if a = 1 then some (1, 0) else if a = 2 then some (5, 0) else none }

/-- Animal 2 migrates from (5,0) with tie-break draw 0. -/
def drawD : Draw := ⟨2, (5, 0), true, 0⟩

/-- Witness for the amended C5: two far-apart migrating animals can be
processed in either order with the same result. -/
theorem migration_perm_invariant_of_disjoint_w :
    migPhase chainTopo st1 [drawA, drawD] = migPhase chainTopo st1 [drawD, drawA] :=
  migration_perm_invariant_of_disjoint chainTopo (List.Perm.swap drawD drawA [])
    st1 (by decide) (by decide)

/-- The unordered helper pairs the visibility loop of `Engine._get_sights`
(engine.py lines 30–40) enumerates: helpers are identified by their index
in `self.helpers`, and for each `i` the inner loop runs `j` over
`range(i + 1, n)`. -/
def sightPairs (n : ℕ) : List (ℕ × ℕ) :=
  (List.range n).flatMap fun i =>
    (List.range' (i + 1) (n - (i + 1))).map fun j => (i, j)

/-- One step of the visibility loop: if the distance test passes, record
each endpoint in the other's sight list. -/
def sightStep (d : ℕ → ℕ → ℚ) (ms : ℚ) (m : ℕ → List ℕ) (p : ℕ × ℕ) :
    ℕ → List ℕ :=
  if d p.1 p.2 ≤ ms then
    fun k => if k = p.1 then m k ++ [p.2] else if k = p.2 then m k ++ [p.1] else m k
  else m

/-- `Engine._get_sights`: the per-helper lists of visible neighbors,
built pair by pair.  `d i j` abstracts `helpers[i].distance(helpers[j])`
(the Player class is not among the shown sources) and `ms` abstracts
`c.MAX_SIGHT_KM`. -/
def buildSights (n : ℕ) (d : ℕ → ℕ → ℚ) (ms : ℚ) : ℕ → List ℕ :=
  (sightPairs n).foldl (sightStep d ms) (fun _ => [])

/-- What one enumerated pair contributes to helper `k`'s sight list. -/
def contrib (k : ℕ) (d : ℕ → ℕ → ℚ) (ms : ℚ) (p : ℕ × ℕ) : List ℕ :=
  if d p.1 p.2 ≤ ms then
    (if k = p.1 then [p.2] else if k = p.2 then [p.1] else [])
  else []

/-- One step of the broadcast loop (engine.py lines 81–83): append a
message from sender `i` to neighbor `j`'s inbox; inboxes hold sender
indices, which determine the attached view and byte. -/
def inboxStep (m : ℕ → List ℕ) (i : ℕ) (j : ℕ) : ℕ → List ℕ :=
  fun k => if k = j then m k ++ [i] else m k

/-- The broadcast pass: for each helper in turn order, deliver one
message to every neighbor in its sight list. -/
def buildInbox (n : ℕ) (sights : ℕ → List ℕ) : ℕ → List ℕ :=
  (List.range n).foldl
    (fun m i => (sights i).foldl (fun m2 j => inboxStep m2 i j) m) (fun _ => [])

/-- A pair is enumerated exactly when it is ordered and in range. -/
theorem mem_sightPairs (n i j : ℕ) :
    (i, j) ∈ sightPairs n ↔ i < j ∧ j < n := by
  simp only [sightPairs, List.mem_flatMap, List.mem_map, List.mem_range,
    List.mem_range'_1, Prod.mk.injEq]
  constructor
  · rintro ⟨a, ha, b, ⟨hb1, hb2⟩, rfl, rfl⟩
    omega
  · rintro ⟨hij, hjn⟩
    exact ⟨i, by omega, j, ⟨by omega, by omega⟩, rfl, rfl⟩

/-- The pair enumeration never repeats a pair. -/
theorem nodup_sightPairs (n : ℕ) : (sightPairs n).Nodup := by
  apply List.nodup_flatMap.mpr
  constructor
  · intro i _
    exact (List.nodup_range' (i + 1) (n - (i + 1))).map
      (fun a b hab => by injection hab)
  · apply (List.pairwise_lt_range n).imp_of_mem
    intro a b _ _ hab
    intro p hpa hpb
    obtain ⟨x, _, hx⟩ := List.mem_map.mp hpa
    obtain ⟨y, _, hy⟩ := List.mem_map.mp hpb
    have : a = b := by
      have h1 : p.1 = a := by rw [← hx]
      have h2 : p.1 = b := by rw [← hy]
      omega
    omega

/-- Applying one `sightStep` appends exactly the pair's contribution. -/
theorem sightStep_apply (d : ℕ → ℕ → ℚ) (ms : ℚ) (m : ℕ → List ℕ)
    (p : ℕ × ℕ) (k : ℕ) :
    sightStep d ms m p k = m k ++ contrib k d ms p := by
  unfold sightStep contrib
  by_cases hp : d p.1 p.2 ≤ ms
  · rw [if_pos hp, if_pos hp]
    by_cases h1 : k = p.1
    · rw [if_pos h1, if_pos h1]
    · rw [if_neg h1, if_neg h1]
      by_cases h2 : k = p.2
      · rw [if_pos h2, if_pos h2]
      · rw [if_neg h2, if_neg h2, List.append_nil]
  · rw [if_neg hp, if_neg hp, List.append_nil]

/-- The visibility fold, run from any accumulator. -/
theorem foldl_sightStep (d : ℕ → ℕ → ℚ) (ms : ℚ) (ps : List (ℕ × ℕ))
    (m₀ : ℕ → List ℕ) (k : ℕ) :
    (ps.foldl (sightStep d ms) m₀) k = m₀ k ++ ps.flatMap (contrib k d ms) := by
  induction ps generalizing m₀ with
  | nil => simp
  | cons p ps ih =>
    rw [List.foldl_cons, ih (sightStep d ms m₀ p), List.flatMap_cons,
      ← List.append_assoc, sightStep_apply]

/-- The sight list of helper `k`, in closed form. -/
theorem buildSights_eq (n : ℕ) (d : ℕ → ℕ → ℚ) (ms : ℚ) (k : ℕ) :
    buildSights n d ms k = (sightPairs n).flatMap (contrib k d ms) := by
  unfold buildSights
  rw [foldl_sightStep]
  rfl

/-- Membership in a sight list, in terms of the distance test. -/
theorem mem_buildSights (n : ℕ) (d : ℕ → ℕ → ℚ) (ms : ℚ) (i j : ℕ) :
    j ∈ buildSights n d ms i ↔
      (i < j ∧ j < n ∧ d i j ≤ ms) ∨ (j < i ∧ i < n ∧ d j i ≤ ms) := by
  rw [buildSights_eq, List.mem_flatMap]
  constructor
  · rintro ⟨p, hp, hj⟩
    unfold contrib at hj
    by_cases hd : d p.1 p.2 ≤ ms
    · rw [if_pos hd] at hj
      by_cases h1 : i = p.1
      · rw [if_pos h1] at hj
        have hj2 : j = p.2 := List.mem_singleton.mp hj
        have hmem : (p.1, p.2) ∈ sightPairs n := by rw [Prod.mk.eta]; exact hp
        have := (mem_sightPairs n p.1 p.2).mp hmem
        left
        rw [h1, hj2]
        exact ⟨this.1, this.2, hd⟩
      · rw [if_neg h1] at hj
        by_cases h2 : i = p.2
        · rw [if_pos h2] at hj
          have hj1 : j = p.1 := List.mem_singleton.mp hj
          have hmem : (p.1, p.2) ∈ sightPairs n := by rw [Prod.mk.eta]; exact hp
          have := (mem_sightPairs n p.1 p.2).mp hmem
          right
          rw [h2, hj1]
          exact ⟨this.1, this.2, hd⟩
        · rw [if_neg h2] at hj
          cases hj
    · rw [if_neg hd] at hj
      cases hj
  · rintro (⟨hij, hjn, hd⟩ | ⟨hji, hin, hd⟩)
    · refine ⟨(i, j), (mem_sightPairs n i j).mpr ⟨hij, hjn⟩, ?_⟩
      unfold contrib
      rw [if_pos hd, if_pos rfl]
      exact List.mem_singleton.mpr rfl
    · refine ⟨(j, i), (mem_sightPairs n j i).mpr ⟨hji, hin⟩, ?_⟩
      unfold contrib
      rw [if_pos hd, if_neg (by omega), if_pos rfl]
      exact List.mem_singleton.mpr rfl

/-- Everything a pair contributes pins the pair down. -/
theorem contrib_mem (k : ℕ) (d : ℕ → ℕ → ℚ) (ms : ℚ) (x : ℕ) (p : ℕ × ℕ)
    (hx : x ∈ contrib k d ms p) : p = (k, x) ∨ p = (x, k) := by
  unfold contrib at hx
  by_cases hd : d p.1 p.2 ≤ ms
  · rw [if_pos hd] at hx
    by_cases h1 : k = p.1
    · rw [if_pos h1] at hx
      have hx2 : x = p.2 := List.mem_singleton.mp hx
      left
      rw [h1, hx2]
    · rw [if_neg h1] at hx
      by_cases h2 : k = p.2
      · rw [if_pos h2] at hx
        have hx1 : x = p.1 := List.mem_singleton.mp hx
        right
        rw [h2, hx1]
      · rw [if_neg h2] at hx
        cases hx
  · rw [if_neg hd] at hx
    cases hx

/-- Sight lists never repeat a neighbor. -/
theorem nodup_buildSights (n : ℕ) (d : ℕ → ℕ → ℚ) (ms : ℚ) (k : ℕ) :
    (buildSights n d ms k).Nodup := by
  rw [buildSights_eq]
  apply List.nodup_flatMap.mpr
  constructor
  · intro p _
    unfold contrib
    by_cases hd : d p.1 p.2 ≤ ms
    · rw [if_pos hd]
      by_cases h1 : k = p.1
      · rw [if_pos h1]; exact List.nodup_singleton _
      · rw [if_neg h1]
        by_cases h2 : k = p.2
        · rw [if_pos h2]; exact List.nodup_singleton _
        · rw [if_neg h2]; exact List.nodup_nil
    · rw [if_neg hd]; exact List.nodup_nil
  · apply (nodup_sightPairs n).imp_of_mem
    intro p q hpmem hqmem hpq x hxp hxq
    rcases contrib_mem k d ms x p hxp with rfl | rfl <;>
      rcases contrib_mem k d ms x q hxq with h | h
    · exact hpq h.symm
    · have h1 := (mem_sightPairs n k x).mp hpmem
      have h2 := (mem_sightPairs n x k).mp (h ▸ hqmem)
      omega
    · have h1 := (mem_sightPairs n x k).mp hpmem
      have h2 := (mem_sightPairs n k x).mp (h ▸ hqmem)
      omega
    · exact hpq h.symm

/-- The inner broadcast fold, run from any accumulator: sender `i` lands
once in a slot per occurrence of that slot in its sight list. -/
theorem foldl_inboxStep (i : ℕ) (js : List ℕ) (m₀ : ℕ → List ℕ) (k : ℕ) :
    (js.foldl (fun m2 j => inboxStep m2 i j) m₀) k =
      m₀ k ++ List.replicate (js.count k) i := by
  induction js generalizing m₀ with
  | nil => simp
  | cons j js ih =>
    rw [List.foldl_cons, ih (inboxStep m₀ i j)]
    unfold inboxStep
    by_cases h : k = j
    · subst h
      rw [if_pos rfl, List.count_cons_self, List.append_assoc]
      congr 1
    · rw [if_neg h, List.count_cons_of_ne h]

/-- The whole broadcast pass, run from any accumulator. -/
theorem foldl_inbox_outer (sights : ℕ → List ℕ) (is : List ℕ)
    (m₀ : ℕ → List ℕ) (k : ℕ) :
    (is.foldl (fun m i => (sights i).foldl (fun m2 j => inboxStep m2 i j) m) m₀) k =
      m₀ k ++ is.flatMap fun i => List.replicate ((sights i).count k) i := by
  induction is generalizing m₀ with
  | nil => simp
  | cons i is ih =>
    rw [List.foldl_cons, ih, List.flatMap_cons, ← List.append_assoc, foldl_inboxStep]

/-- The inbox of helper `k`, in closed form. -/
theorem buildInbox_eq (n : ℕ) (sights : ℕ → List ℕ) (k : ℕ) :
    buildInbox n sights k =
      (List.range n).flatMap fun i => List.replicate ((sights i).count k) i := by
  unfold buildInbox
  rw [foldl_inbox_outer]
  rfl

/-- Counting occurrences distributes over `flatMap`. -/
theorem count_flatMap {α β : Type} [DecidableEq β] (l : List α) (f : α → List β)
    (b : β) : (l.flatMap f).count b = (l.map fun a => (f a).count b).sum := by
  induction l with
  | nil => rfl
  | cons a l ih => rw [List.flatMap_cons, List.count_append, List.map_cons,
      List.sum_cons, ih]

/-- Summing a map over `range n` that vanishes away from `i`. -/
theorem sum_map_range_single (n : ℕ) (f : ℕ → ℕ) (i : ℕ) (hi : i < n)
    (h0 : ∀ j, j ≠ i → f j = 0) : ((List.range n).map f).sum = f i := by
  induction n with
  | zero => omega
  | succ n ih =>
    rw [List.range_succ, List.map_append, List.sum_append]
    rcases Nat.lt_or_ge i n with h | h
    · rw [ih h]
      simp [h0 n (by omega)]
    · have hin : i = n := by omega
      subst hin
      have : ((List.range i).map f).sum = 0 := by
        apply List.sum_eq_zero
        intro x hx
        obtain ⟨j, hj, rfl⟩ := List.mem_map.mp hx
        exact h0 j (by have := List.mem_range.mp hj; omega)
      rw [this]
      simp

/-- Each sender lands in an inbox as often as the inbox's owner appears
in the sender's sight list. -/
theorem count_buildInbox (n : ℕ) (sights : ℕ → List ℕ) (h i : ℕ) (hi : i < n) :
    (buildInbox n sights h).count i = (sights i).count h := by
  rw [buildInbox_eq, count_flatMap]
  have h0 : ∀ j, j ≠ i → (List.replicate ((sights j).count h) j).count i = 0 := by
    intro j hj
    rw [List.count_replicate]
    simp [hj]
  have hsum := sum_map_range_single n
    (fun a => (List.replicate ((sights a).count h) a).count i) i hi h0
  rw [hsum]
  show (List.replicate ((sights i).count h) i).count i = (sights i).count h
  rw [List.count_replicate]
  simp

/-- C8.  The visibility relation the per-turn pair loop computes is
symmetric and irreflexive, every helper's inbox carries exactly one
message per visible neighbor (none from itself or from helpers out of
range), and a helper farther than the sight range from every other
helper receives an empty inbox. -/
theorem visibility_symmetric_one_message_per_neighbor (n : ℕ)
    (d : ℕ → ℕ → ℚ) (ms : ℚ) (i h : ℕ) (hi : i < n) (hh : h < n) :
    (i ∈ buildSights n d ms h ↔ h ∈ buildSights n d ms i) ∧
    (h ∉ buildSights n d ms h) ∧
    ((buildInbox n (buildSights n d ms) h).count i =
      if i ∈ buildSights n d ms h then 1 else 0) ∧
    ((∀ k, k < n → k ≠ h → ¬ d h k ≤ ms ∧ ¬ d k h ≤ ms) →
      buildInbox n (buildSights n d ms) h = []) := by
  have hsymm : ∀ a b, a < n → b < n →
      (a ∈ buildSights n d ms b ↔ b ∈ buildSights n d ms a) := by
    intro a b _ _
    rw [mem_buildSights, mem_buildSights]
    constructor
    · rintro (⟨h1, h2, h3⟩ | ⟨h1, h2, h3⟩)
      · exact Or.inr ⟨h1, h2, h3⟩
      · exact Or.inl ⟨h1, h2, h3⟩
    · rintro (⟨h1, h2, h3⟩ | ⟨h1, h2, h3⟩)
      · exact Or.inr ⟨h1, h2, h3⟩
      · exact Or.inl ⟨h1, h2, h3⟩
  refine ⟨hsymm i h hi hh, ?_, ?_, ?_⟩
  · rw [mem_buildSights]
    rintro (⟨h1, _⟩ | ⟨h1, _⟩) <;> omega
  · rw [count_buildInbox n (buildSights n d ms) h i hi]
    have hnd := nodup_buildSights n d ms i
    by_cases hmem : i ∈ buildSights n d ms h
    · rw [if_pos hmem]
      exact List.count_eq_one_of_mem hnd ((hsymm i h hi hh).mp hmem)
    · rw [if_neg hmem]
      exact List.count_eq_zero_of_not_mem
        (fun hc => hmem ((hsymm i h hi hh).mpr hc))
  · intro hfar
    rw [buildInbox_eq]
    apply List.flatMap_eq_nil_iff.mpr
    intro x hx
    have hxn : x < n := List.mem_range.mp hx
    have : h ∉ buildSights n d ms x := by
      rw [mem_buildSights]
      rintro (⟨h1, h2, h3⟩ | ⟨h1, h2, h3⟩)
      · exact (hfar x hxn (by omega)).2 h3
      · exact (hfar x hxn (by omega)).1 h3
    rw [List.count_eq_zero_of_not_mem this, List.replicate_zero]

/-- Witness for C8 with three helpers all 1 km apart and a 1 km sight
range: helpers 0 and 1 see each other, nobody sees itself, and inbox
counts match. -/
theorem visibility_symmetric_one_message_per_neighbor_w :
    ((0 : ℕ) ∈ buildSights 3 (fun _ _ => 1) 1 1 ↔
      (1 : ℕ) ∈ buildSights 3 (fun _ _ => 1) 1 0) ∧
    ((1 : ℕ) ∉ buildSights 3 (fun _ _ => 1) 1 1) ∧
    ((buildInbox 3 (buildSights 3 (fun _ _ => 1) 1) 1).count 0 =
      if (0 : ℕ) ∈ buildSights 3 (fun _ _ => 1) 1 1 then 1 else 0) ∧
    ((∀ k, k < 3 → k ≠ 1 → ¬ (fun (_ _ : ℕ) => (1 : ℚ)) 1 k ≤ 1 ∧
        ¬ (fun (_ _ : ℕ) => (1 : ℚ)) k 1 ≤ 1) →
      buildInbox 3 (buildSights 3 (fun _ _ => 1) 1) 1 = []) :=
  visibility_symmetric_one_message_per_neighbor 3 (fun _ _ => 1) 1 0 1
    (by decide) (by decide)

end NoahCore
